import Mathlib

/-!
Verification of the Mail Coloring application core.

Shallow embedding of the repository's JavaScript sources:
* the effects composition engine, in its two versions
  (`src/effects.js`, namespace `EffectsJs`, and the refactored
  config-based file `src/unnamed/part_000`, namespace `Part000`);
* the AI word-selection service (`src/ai_service.js`, namespace `AiService`);
* the markup word-patching helpers (`src/app.js`, namespace `App`).

Modelling conventions: JavaScript numbers are rationals; a JS numeric
value that may be `undefined` or `NaN` is an `Option ℚ` / `Option ℤ`
(`none` standing for the undefined/NaN case, which JS arithmetic
propagates); strings processed character by character are `List Char`.
`Math.sin` is kept abstract as a parameter `sin : ℚ → ℚ` — every
property proved here holds for an arbitrary interpretation of it.
The engine's output markup is modelled as a list of `Part`s mirroring
the `htmlParts` array the JS code builds and then joins.
-/

namespace MailColoring

/-- JS `Math.round`: round half toward positive infinity, `⌊x + 1/2⌋`. -/
def jsRound (x : ℚ) : ℤ := ⌊x + 1/2⌋

/-- JS `x || d` for a possibly-undefined number `x`: `undefined` and `0` are falsy. -/
def jsOrDefault (x : Option ℚ) (d : ℚ) : ℚ :=
  match x with
  | none => d
  | some v => if v = 0 then d else v

/-- `Math.max(1, total - 1)`: the denominator used by the rise/fall progress
fraction in both implementations. -/
def curveDenominator (total : ℕ) : ℤ := max 1 ((total : ℤ) - 1)

/-- JS `s.includes(sub)`: substring containment. -/
def jsIncludes (s sub : List Char) : Bool :=
  match s with
  | [] => sub.isEmpty
  | c :: t => sub.isPrefixOf (c :: t) || jsIncludes t sub

/-- `chars.filter(c => c !== ' ').length`, the shared non-space character count. -/
def countNonSpace (chars : List Char) : ℕ := (chars.filter (fun c => c != ' ')).length

/-- The three color effect keys of the catalog. -/
inductive ColorKey where
  | rainbow
  | flame
  | flower
deriving DecidableEq

/-- The three size effect keys of the catalog. -/
inductive SizeKey where
  | wave
  | rise
  | fall
deriving DecidableEq

/-- Data of a color effect: decoration glyphs and the color cycle. -/
structure ColorConfig where
  decorationBefore : String
  decorationAfter : String
  colors : List String
deriving DecidableEq

def rainbowConfig : ColorConfig :=
  ⟨"✨ ", " ✨",
   ["#ff0000", "#ff7f00", "#ffff00", "#00ff00", "#0099ff", "#6633ff", "#9400d3"]⟩

def flameConfig : ColorConfig :=
  ⟨"🔥 ", " 🔥", ["#ffff00", "#ff7f00", "#ff4500", "#ff0000"]⟩

def flowerConfig : ColorConfig :=
  ⟨"🌸 ", " 🌺", ["#9400d3", "#ff69b4", "#ff1493", "#fa8072"]⟩

/-- `EFFECT_CONFIGS.color` / `EFFECTS.color`: key to config. -/
def colorConfigOf : ColorKey → ColorConfig
  | .rainbow => rainbowConfig
  | .flame => flameConfig
  | .flower => flowerConfig

/-- The `options` argument `{ intensity, baseSize }`; fields may be absent. -/
structure EffectOptions where
  intensity : Option ℚ := none
  baseSize : Option ℚ := none
deriving DecidableEq

/-- The `selectedEffects` / `activeEffects` argument `{ color, size }`. -/
structure Selection where
  color : Option ColorKey := none
  size : Option SizeKey := none
deriving DecidableEq

/-- One entry of the `htmlParts` array built by `combineEffects`.
`fontSize = none`: no size style; `fontSize = some none`: a `NaN` size;
`fontSize = some (some v)`: `font-size: vpx`. -/
inductive Part where
  | decor (s : String)
  | styled (color : Option String) (fontSize : Option (Option ℤ)) (c : Char)
  | space
  | plain (c : Char)
deriving DecidableEq

/-- Whether a part is a decoration span (carries `data-decoration="true"`). -/
def Part.isDecor : Part → Bool
  | .decor _ => true
  | _ => false

/-- The text content of a part once rendered. -/
def Part.textContent : Part → List Char
  | .decor s => s.toList
  | .styled _ _ c => [c]
  | .space => [' ']
  | .plain c => [c]

/-- The style data attached to one rendered character. -/
structure CharStyle where
  color : Option String
  fontSize : Option (Option ℤ)
  char : Char
deriving DecidableEq

/-- Extract the style of a character part (spaces and decorations carry none). -/
def charInfo : Part → Option CharStyle
  | .styled col sz c => some ⟨col, sz, c⟩
  | .plain c => some ⟨none, none, c⟩
  | .space => none
  | .decor _ => none

/-- The per-non-space-character styles of an output, in order. -/
def nonSpaceInfos (ps : List Part) : List CharStyle := ps.filterMap charInfo

/-- Closed-form description of the styles of a run of non-space characters
starting at non-space index `k`: color cycling `colors[k % len]` plus a size
given by `sizeOf k`. -/
def styleFormula (colorCfg : Option ColorConfig) (sizeOf : ℕ → Option (Option ℤ)) :
    List Char → ℕ → List CharStyle
  | [], _ => []
  | c :: cs, k =>
      ⟨colorCfg.map fun cfg => cfg.colors.getD (k % cfg.colors.length) "",
       sizeOf k, c⟩ :: styleFormula colorCfg sizeOf cs (k + 1)

/-! ## The refactored implementation (`src/unnamed/part_000`) -/

namespace Part000

/-- `{ ...options, baseSize }`: spread keeps `options.intensity` untouched and
overrides `baseSize` with the defaulted value. -/
def spreadBaseSize (o : EffectOptions) (b : ℚ) : EffectOptions :=
  { o with baseSize := some b }

/-- `EFFECT_CONFIGS.size[key].getOffset(index, total, options)`.
A `none` result is the `NaN` the JS code computes when `options.intensity`
(or `options.baseSize`) is `undefined`. -/
def getOffset (sin : ℚ → ℚ) (key : SizeKey) (index total : ℕ) (o : EffectOptions) :
    Option ℚ :=
  match key with
  | .wave =>
      match o.intensity with
      | none => none
      | some i => some (sin ((index : ℚ) * (1/2)) * (2 + (i - 1) * 2))
  | .rise =>
      match o.intensity, o.baseSize with
      | some i, some b =>
          let progress : ℚ := (index : ℚ) / ((curveDenominator total : ℤ) : ℚ)
          let maxSize := b + i * 4
          some (progress * (maxSize - b))
      | _, _ => none
  | .fall =>
      match o.intensity, o.baseSize with
      | some i, some b =>
          let progress : ℚ := (index : ℚ) / ((curveDenominator total : ℤ) : ℚ)
          let maxSize := b + i * 4
          let minSize := max 8 (b - i)
          let target := maxSize - progress * (maxSize - minSize)
          some (target - b)
      | _, _ => none

/-- `Math.max(8, Math.round(baseSize + offset))`, propagating `NaN`. -/
def sizeValue (baseSize : ℚ) (offset : Option ℚ) : Option ℤ :=
  offset.map fun off => max 8 (jsRound (baseSize + off))

/-- The character loop of `combineEffects`: `charIndex` counts only non-space
characters; spaces pass through unstyled. -/
def processChars (sin : ℚ → ℚ) (colorCfg : Option ColorConfig) (sizeKey : Option SizeKey)
    (opts : EffectOptions) (baseSize : ℚ) (total : ℕ) :
    List Char → ℕ → List Part
  | [], _ => []
  | c :: rest, charIndex =>
      if c = ' ' then
        Part.space :: processChars sin colorCfg sizeKey opts baseSize total rest charIndex
      else
        let color := colorCfg.map fun cfg => cfg.colors.getD (charIndex % cfg.colors.length) ""
        let fontSize := sizeKey.map fun key =>
          sizeValue baseSize (getOffset sin key charIndex total (spreadBaseSize opts baseSize))
        (if color.isSome || fontSize.isSome then Part.styled color fontSize c
         else Part.plain c)
          :: processChars sin colorCfg sizeKey opts baseSize total rest (charIndex + 1)

/-- `combineEffects(text, activeEffects, options)` as its `htmlParts` list.
Note that the defaulted local `intensity` of the source is dead: the options
object forwarded to `getOffset` only overrides `baseSize`. -/
def combineParts (sin : ℚ → ℚ) (text : List Char) (sel : Selection)
    (opts : EffectOptions) : List Part :=
  let _intensity := jsOrDefault opts.intensity 5
  let baseSize := jsOrDefault opts.baseSize 16
  let colorCfg := sel.color.map colorConfigOf
  let total := countNonSpace text
  let pre : List Part :=
    match colorCfg with
    | some cfg => if cfg.decorationBefore ≠ "" then [Part.decor cfg.decorationBefore] else []
    | none => []
  let post : List Part :=
    match colorCfg with
    | some cfg => if cfg.decorationAfter ≠ "" then [Part.decor cfg.decorationAfter] else []
    | none => []
  pre ++ processChars sin colorCfg sel.size opts baseSize total text 0 ++ post

/-- Rendering of a part into the HTML string the JS code produces
(`style="color: C;font-size: Spx;"` with no separator space). -/
def renderPart : Part → String
  | .decor s => "<span data-decoration=\"true\">" ++ s ++ "</span>"
  | .styled col sz c =>
      let colorPart := match col with
        | some v => "color: " ++ v ++ ";"
        | none => ""
      let sizePart := match sz with
        | some (some v) => "font-size: " ++ toString v ++ "px;"
        | some none => "font-size: NaNpx;"
        | none => ""
      "<span style=\"" ++ colorPart ++ sizePart ++ "\">" ++ String.mk [c] ++ "</span>"
  | .space => " "
  | .plain c => String.mk [c]

/-- `combineEffects` proper: the joined HTML string. -/
def combineEffects (sin : ℚ → ℚ) (text : List Char) (sel : Selection)
    (opts : EffectOptions) : String :=
  String.join ((combineParts sin text sel opts).map renderPart)

/-- The size the refactored engine attaches to the `k`-th non-space character. -/
def sizeAtNonSpace (sin : ℚ → ℚ) (sk : Option SizeKey) (opts : EffectOptions)
    (total : ℕ) (k : ℕ) : Option (Option ℤ) :=
  sk.map fun key =>
    sizeValue (jsOrDefault opts.baseSize 16)
      (getOffset sin key k total (spreadBaseSize opts (jsOrDefault opts.baseSize 16)))

end Part000

/-! ## The legacy implementation (`src/effects.js`) -/

namespace EffectsJs

/-- The size computed for the non-space character of index `charIdx` inside the
`sizeValues` precomputation of `combineEffects`.  Note `rise` and `fall` do not
clamp at 8 in this version. -/
def sizeValueAt (sin : ℚ → ℚ) (key : SizeKey) (intensity baseSize : ℚ) (total : ℕ)
    (charIdx : ℕ) : ℤ :=
  match key with
  | .wave =>
      let amplitude := 2 + (intensity - 1) * 2
      max 8 (jsRound (baseSize + sin ((charIdx : ℚ) * (1/2)) * amplitude))
  | .rise =>
      let maxSize := baseSize + intensity * 4
      let progress : ℚ := (charIdx : ℚ) / ((curveDenominator total : ℤ) : ℚ)
      jsRound (baseSize + progress * (maxSize - baseSize))
  | .fall =>
      let maxSize := baseSize + intensity * 4
      let minSize := max 8 (baseSize - intensity)
      let progress : ℚ := (charIdx : ℚ) / ((curveDenominator total : ℤ) : ℚ)
      jsRound (maxSize - progress * (maxSize - minSize))

/-- The `sizeValues` array: `null` (here `none`) for spaces, a number for
non-space characters, indexed by the raw position. -/
def sizeValuesGo (sin : ℚ → ℚ) (key : SizeKey) (intensity baseSize : ℚ) (total : ℕ) :
    List Char → ℕ → List (Option ℤ)
  | [], _ => []
  | c :: rest, charIdx =>
      if c = ' ' then
        none :: sizeValuesGo sin key intensity baseSize total rest charIdx
      else
        some (sizeValueAt sin key intensity baseSize total charIdx)
          :: sizeValuesGo sin key intensity baseSize total rest (charIdx + 1)

/-- The main character loop of `combineEffects`: raw index `i` into
`sizeValues`, `colorIndex` advanced only on non-space characters. -/
def buildGo (colorCfg : Option ColorConfig) (sizeVals : List (Option ℤ)) :
    List Char → ℕ → ℕ → List Part
  | [], _, _ => []
  | c :: rest, i, colorIndex =>
      if c = ' ' then
        Part.space :: buildGo colorCfg sizeVals rest (i + 1) colorIndex
      else
        let color := colorCfg.map fun cfg => cfg.colors.getD (colorIndex % cfg.colors.length) ""
        let fontSize : Option ℤ :=
          match sizeVals.get? i with
          | some (some v) => some v
          | _ => none
        (if color.isSome || fontSize.isSome then Part.styled color (fontSize.map some) c
         else Part.plain c)
          :: buildGo colorCfg sizeVals rest (i + 1) (colorIndex + 1)

/-- `combineEffects(text, selectedEffects, options)` of the legacy file,
as its `htmlParts` list. -/
def combineParts (sin : ℚ → ℚ) (text : List Char) (sel : Selection)
    (opts : EffectOptions) : List Part :=
  let intensity := jsOrDefault opts.intensity 5
  let baseSize := jsOrDefault opts.baseSize 16
  let colorCfg := sel.color.map colorConfigOf
  let pre : List Part :=
    match colorCfg with
    | some cfg => if cfg.decorationBefore ≠ "" then [Part.decor cfg.decorationBefore] else []
    | none => []
  let post : List Part :=
    match colorCfg with
    | some cfg => if cfg.decorationAfter ≠ "" then [Part.decor cfg.decorationAfter] else []
    | none => []
  let sizeVals : List (Option ℤ) :=
    match sel.size with
    | some key => sizeValuesGo sin key intensity baseSize (countNonSpace text) text 0
    | none => []
  pre ++ buildGo colorCfg sizeVals text 0 0 ++ post

/-- Rendering with this file's formatting: styles joined by `"; "` plus a
trailing `";"`. -/
def renderPart : Part → String
  | .decor s => "<span data-decoration=\"true\">" ++ s ++ "</span>"
  | .styled col sz c =>
      let styles : List String :=
        (match col with
         | some v => ["color: " ++ v]
         | none => []) ++
        (match sz with
         | some (some v) => ["font-size: " ++ toString v ++ "px"]
         | some none => ["font-size: NaNpx"]
         | none => [])
      "<span style=\"" ++ String.intercalate "; " styles ++ ";\">" ++ String.mk [c] ++ "</span>"
  | .space => " "
  | .plain c => String.mk [c]

/-- `combineEffects` proper: the joined HTML string. -/
def combineEffects (sin : ℚ → ℚ) (text : List Char) (sel : Selection)
    (opts : EffectOptions) : String :=
  String.join ((combineParts sin text sel opts).map renderPart)

/-- The size the legacy engine attaches to the `k`-th non-space character. -/
def sizeAtNonSpace (sin : ℚ → ℚ) (sk : Option SizeKey) (opts : EffectOptions)
    (total : ℕ) (k : ℕ) : Option (Option ℤ) :=
  sk.map fun key =>
    some (sizeValueAt sin key (jsOrDefault opts.intensity 5) (jsOrDefault opts.baseSize 16)
      total k)

end EffectsJs

/-- The catalog's color keys, in definition order (`Object.keys(EFFECTS.color)`). -/
def colorKeys : List ColorKey := [.rainbow, .flame, .flower]

/-- The catalog's size keys, in definition order (`Object.keys(EFFECTS.size)`). -/
def sizeKeys : List SizeKey := [.wave, .rise, .fall]

/-- `applyRandomEffects(text, options)` as present in both effects files:
select one color key and one size key from the catalog (the random indices
`Math.floor(Math.random() * keys.length)` are abstracted as arguments reduced
mod the key count) and delegate to `combineEffects`.  No uniform text or
background color is involved in this function. -/
def applyRandomEffects (sin : ℚ → ℚ) (colorPick sizePick : ℕ) (text : List Char)
    (opts : EffectOptions) : String × Selection :=
  let sel : Selection :=
    ⟨some (colorKeys.getD (colorPick % colorKeys.length) .rainbow),
     some (sizeKeys.getD (sizePick % sizeKeys.length) .wave)⟩
  (Part000.combineEffects sin text sel opts, sel)

/-! ## The AI service (`src/ai_service.js`) -/

namespace AiService

/-- A scalar element of the parsed JSON array: the code only distinguishes
strings (`typeof word === 'string'`) from everything else. -/
inductive JsonScalar where
  | str (s : List Char)
  | nonString
deriving DecidableEq

/-- JSON whitespace. -/
def skipWs : List Char → List Char
  | [] => []
  | c :: rest => if c = ' ' || c = '\n' || c = '\t' || c = '\r' then skipWs rest else c :: rest

def hexVal (c : Char) : Option ℕ :=
  if '0' ≤ c ∧ c ≤ '9' then some (c.toNat - '0'.toNat)
  else if 'a' ≤ c ∧ c ≤ 'f' then some (c.toNat - 'a'.toNat + 10)
  else if 'A' ≤ c ∧ c ≤ 'F' then some (c.toNat - 'A'.toNat + 10)
  else none

/-- Body of a JSON string literal (after the opening quote): returns the
decoded content and the remainder after the closing quote. -/
def parseStringBody : List Char → Option (List Char × List Char)
  | [] => none
  | '"' :: rest => some ([], rest)
  | '\\' :: 'u' :: a :: b :: c :: d :: rest => do
      let ha ← hexVal a
      let hb ← hexVal b
      let hc ← hexVal c
      let hd ← hexVal d
      let (s, r) ← parseStringBody rest
      some (Char.ofNat (((ha * 16 + hb) * 16 + hc) * 16 + hd) :: s, r)
  | '\\' :: e :: rest => do
      let ce ← match e with
        | '"' => some '"'
        | '\\' => some '\\'
        | '/' => some '/'
        | 'b' => some (Char.ofNat 8)
        | 'f' => some (Char.ofNat 12)
        | 'n' => some '\n'
        | 'r' => some '\r'
        | 't' => some '\t'
        | _ => none
      let (s, r) ← parseStringBody rest
      some (ce :: s, r)
  | c :: rest => do
      let (s, r) ← parseStringBody rest
      some (c :: s, r)

def isNumberChar (c : Char) : Bool :=
  c.isDigit || c = '-' || c = '+' || c = '.' || c = 'e' || c = 'E'

def parseNumber (s : List Char) : Option (List Char) :=
  let tok := s.takeWhile isNumberChar
  if tok.any Char.isDigit then some (s.drop tok.length) else none

/-- One scalar JSON value.  (The sliced candidate array cannot contain a nested
array: the lazy regex slice below already ends at the first `]`.) -/
def parseValue (s : List Char) : Option (JsonScalar × List Char) :=
  match s with
  | '"' :: rest => (parseStringBody rest).map fun p => (.str p.1, p.2)
  | 't' :: 'r' :: 'u' :: 'e' :: r => some (.nonString, r)
  | 'f' :: 'a' :: 'l' :: 's' :: 'e' :: r => some (.nonString, r)
  | 'n' :: 'u' :: 'l' :: 'l' :: r => some (.nonString, r)
  | _ => (parseNumber s).map fun r => (.nonString, r)

/-- Comma-separated scalars up to the closing `]` (fuel-indexed). -/
def parseElems (fuel : ℕ) (s : List Char) : Option (List JsonScalar × List Char) :=
  match fuel with
  | 0 => none
  | fuel + 1 =>
    match parseValue (skipWs s) with
    | none => none
    | some (v, r) =>
      match skipWs r with
      | ']' :: r' => some ([v], r')
      | ',' :: r' => (parseElems fuel r').map fun p => (v :: p.1, p.2)
      | _ => none

/-- `JSON.parse` restricted to a flat array of scalars — the only shape the
prompt requests and the code consumes; any other input fails (→ `[]`). -/
def parseJsonArray (s : List Char) : Option (List JsonScalar) :=
  match skipWs s with
  | '[' :: r =>
    match skipWs r with
    | ']' :: r' => if (skipWs r').isEmpty then some [] else none
    | r'' =>
      match parseElems (r''.length + 1) r'' with
      | some (vs, rest) => if (skipWs rest).isEmpty then some vs else none
      | none => none
  | _ => none

/-- Suffix through the first `]` inclusive. -/
def takeThroughRBracket : List Char → Option (List Char)
  | [] => none
  | ']' :: _ => some [']']
  | c :: rest => (takeThroughRBracket rest).map (c :: ·)

/-- `response.match(/\[[\s\S]*?\]/)`: the leftmost-lazy match, i.e. from the
first `[` through the first following `]` (no match if either is missing). -/
def firstBracketSlice : List Char → Option (List Char)
  | [] => none
  | '[' :: rest => (takeThroughRBracket rest).map ('[' :: ·)
  | _ :: rest => firstBracketSlice rest

/-- `parseWordsFromResponse(response, originalText)`: slice the first bracketed
array, `JSON.parse` it, keep the entries that are strings and occur verbatim in
the original text; any failure yields `[]`. -/
def parseWordsFromResponse (response originalText : List Char) : List (List Char) :=
  match firstBracketSlice response with
  | none => []
  | some slice =>
    match parseJsonArray slice with
    | none => []
    | some entries =>
      entries.filterMap fun e =>
        match e with
        | .str w => if jsIncludes originalText w then some w else none
        | .nonString => none

/-- Outcome of one `callGeminiAPI` attempt (network call abstracted): either
the response text or a thrown error message. -/
inductive CallOutcome (α : Type) where
  | ok (value : α)
  | error (msg : List Char)

/-- `error.message.includes('429') || error.message.includes('quota')` — the
condition under which the loop falls through to the next model. -/
def isQuotaMessage (msg : List Char) : Bool :=
  jsIncludes msg "429".toList || jsIncludes msg "quota".toList

def allModelsFailed : List Char := "All models failed".toList

/-- The shared fallback loop of `analyzeTextForColoring` and
`getEmojiForText`: try each model in order; a successful call whose payload
validates returns with that model; a quota error records the error and falls
through; any other error is thrown at once; an exhausted list throws the last
recorded error or the generic message. -/
def modelFallbackLoop {α β : Type} (attempt : String → CallOutcome α)
    (validate : α → Option β) :
    List String → Option (List Char) → Except (List Char) (β × String)
  | [], lastError => .error (lastError.getD allModelsFailed)
  | m :: rest, lastError =>
    match attempt m with
    | .ok a =>
      match validate a with
      | some b => .ok (b, m)
      | none => modelFallbackLoop attempt validate rest lastError
    | .error msg =>
      if isQuotaMessage msg then modelFallbackLoop attempt validate rest (some msg)
      else .error msg

/-- The models the loop actually calls, in call order. -/
def attemptedModels {α β : Type} (attempt : String → CallOutcome α)
    (validate : α → Option β) : List String → List String
  | [] => []
  | m :: rest =>
    match attempt m with
    | .ok a =>
      match validate a with
      | some _ => [m]
      | none => m :: attemptedModels attempt validate rest
    | .error msg =>
      if isQuotaMessage msg then m :: attemptedModels attempt validate rest else [m]

/-- `if (words.length > 0) return { words, model }` — the validation step of
`analyzeTextForColoring`. -/
def validWords (text : List Char) (raw : List Char) : Option (List (List Char)) :=
  let ws := parseWordsFromResponse raw text
  if ws.isEmpty then none else some ws

/-- `analyzeTextForColoring(text, apiKey, density)` over an already-fetched
ranked model list; `attempt` abstracts `callGeminiAPI` for each model. -/
def analyzeTextForColoring (attempt : String → CallOutcome (List Char))
    (models : List String) (text : List Char) :
    Except (List Char) (List (List Char) × String) :=
  if models.isEmpty then .error "No compatible models available".toList
  else modelFallbackLoop attempt (validWords text) models none

/-- `getEmojiForText(text, apiKey)`; `extractEmoji` abstracts the Unicode
emoji-property regex `extractEmoji` of the source. -/
def getEmojiForText (extractEmoji : List Char → Option (List Char))
    (attempt : String → CallOutcome (List Char)) (models : List String) :
    Except (List Char) (List Char × String) :=
  if models.isEmpty then .error "No compatible models available".toList
  else modelFallbackLoop attempt extractEmoji models none

end AiService

/-! ## The markup patchers (`src/app.js`) -/

namespace App

/-- JS regex `\w`: ASCII letters, digits and underscore. -/
def isWordChar (c : Char) : Bool := c.isAlphanum || c = '_'

/-- The lookbehind `(?<![<\/\w])` applied to the character before the match
position (`none` at string start). -/
def lookbehindOk (prev : Option Char) : Bool :=
  match prev with
  | none => true
  | some c => !(c = '<' || c = '/' || isWordChar c)

/-- The lookahead `(?![\w>])` applied to the remainder after the match. -/
def lookaheadOk (s : List Char) : Bool :=
  match s with
  | [] => true
  | c :: _ => !(isWordChar c || c = '>')

/-- The regex `(?<![<\/\w])word(?![\w>])` matches at the head of `s` with
preceding character `prev`. -/
def matchOk (word : List Char) (prev : Option Char) (s : List Char) : Bool :=
  lookbehindOk prev && word.isPrefixOf s && lookaheadOk (s.drop word.length)

/-- `String.prototype.replace` with the word regex: scan left to right; on a
match emit `repl` and (global flag) continue after the matched text — the
replacement itself is never rescanned.  `(c :: rest).drop word.length` is
written `rest.drop (word.length - 1)` (equal, as `word ≠ []` at that point). -/
def replaceScan (word repl : List Char) (global : Bool) (prev : Option Char) :
    (s : List Char) → List Char
  | [] => []
  | c :: rest =>
    if !word.isEmpty && matchOk word prev (c :: rest) then
      if global then
        repl ++ replaceScan word repl global (some (word.getLastD c)) (rest.drop (word.length - 1))
      else
        repl ++ rest.drop (word.length - 1)
    else
      c :: replaceScan word repl global (some c) rest
termination_by s => s.length
decreasing_by
  all_goals simp [List.length_drop]
  omega

/-- The number of (non-overlapping, left-to-right) match sites the global
replacement rewrites. -/
def countMatches (word : List Char) (prev : Option Char) : (s : List Char) → ℕ
  | [] => 0
  | c :: rest =>
    if !word.isEmpty && matchOk word prev (c :: rest) then
      1 + countMatches word (some (word.getLastD c)) (rest.drop (word.length - 1))
    else
      countMatches word (some c) rest
termination_by s => s.length
decreasing_by
  all_goals simp [List.length_drop]
  omega

/-- `html.replace(new RegExp(..., flags), repl)` from the start of the string. -/
def jsReplaceWord (global : Bool) (word repl s : List Char) : List Char :=
  replaceScan word repl global none s

/-- Stable insertion keeping longer words first — one step of the JS stable
`sort((a, b) => b.length - a.length)`. -/
def insertByLenDesc (w : List Char) : List (List Char) → List (List Char)
  | [] => [w]
  | v :: vs => if w.length ≤ v.length then v :: insertByLenDesc w vs else w :: v :: vs

/-- `[...words].sort((a, b) => b.length - a.length)` (stable, longest first). -/
def sortByLenDesc (ws : List (List Char)) : List (List Char) :=
  ws.foldl (fun acc w => insertByLenDesc w acc) []

/-- `applyColorToWords(words)` over the editor HTML: longest word first, each
word replaced through the *global* regex `(?<![<\/\w])word(?![\w>])` with flag
`g`.  `styleOf w` abstracts `applyRandomEffects(match, options).html`, the
styled fragment substituted for the matched word. -/
def applyColorToWords (styleOf : List Char → List Char) (words : List (List Char))
    (html : List Char) : List Char :=
  (sortByLenDesc words).foldl (fun h w => jsReplaceWord true w (styleOf w) h) html

def toLowerList (s : List Char) : List Char := s.map Char.toLower

/-- Case-insensitive prefix test (flag `i`). -/
def isPrefixOfCI (word s : List Char) : Bool :=
  (toLowerList word).isPrefixOf (toLowerList s)

/-- The lookahead `(?![\w])` of the emoji regex. -/
def lookaheadOkEmoji (s : List Char) : Bool :=
  match s with
  | [] => true
  | c :: _ => !isWordChar c

/-- The regex `(word)(?![\w])` with flag `i` (no lookbehind) matches at the
head of `s`. -/
def matchOkEmoji (word : List Char) (s : List Char) : Bool :=
  isPrefixOfCI word s && lookaheadOkEmoji (s.drop word.length)

/-- `applyEmojisToEditor`'s per-item replacement: non-global, so only the first
(case-insensitive) occurrence is rewritten, into `match + ' ' + emoji`. -/
def replaceFirstEmoji (word emoji : List Char) : (s : List Char) → List Char
  | [] => []
  | c :: rest =>
    if !word.isEmpty && matchOkEmoji word (c :: rest) then
      (c :: rest).take word.length ++ ' ' :: emoji ++ (c :: rest).drop word.length
    else
      c :: replaceFirstEmoji word emoji rest

def insertItemByLenDesc (it : List Char × List Char) :
    List (List Char × List Char) → List (List Char × List Char)
  | [] => [it]
  | v :: vs => if it.1.length ≤ v.1.length then v :: insertItemByLenDesc it vs else it :: v :: vs

def sortItemsByLenDesc (items : List (List Char × List Char)) :
    List (List Char × List Char) :=
  items.foldl (fun acc it => insertItemByLenDesc it acc) []

/-- `applyEmojisToEditor(emojiItems)` over the editor HTML: longest word first,
items with an empty word or emoji skipped, each word patched once. -/
def applyEmojisToEditor (items : List (List Char × List Char)) (html : List Char) :
    List Char :=
  (sortItemsByLenDesc items).foldl
    (fun h it => if it.1.isEmpty || it.2.isEmpty then h else replaceFirstEmoji it.1 it.2 h)
    html

end App

/-! ## The random composition policy's simple mode (modelled from the spec) -/

namespace SpecRandom

/-- Modelled from the spec: the simple mode of the random composition policy
(§4.3) is missing from the sources under `src/` — `applyRandomEffects` in both
effects files only picks one catalog color effect and one size effect, while
the README and §4.3 describe a simple mode choosing uniform text/background
colors.  The spec's resampling loop "when both are chosen, resample background
until it differs from the text color": given the stream of successive
background samples, the first one differing from the text color is kept. -/
def resampleUntilDifferent (textColor : String) : List String → Option String
  | [] => none
  | s :: rest => if s = textColor then resampleUntilDifferent textColor rest else some s

/-- Modelled from the spec: the resolved choices of simple mode when both a
uniform text color and a uniform background color are selected. -/
structure SimpleBothChoice where
  textColor : String
  bgColor : String
deriving DecidableEq

/-- Modelled from the spec: simple mode, both chosen — take the sampled text
color, then resample the background until it differs from it. -/
def simpleModeBoth (textSample : String) (bgSamples : List String) :
    Option SimpleBothChoice :=
  (resampleUntilDifferent textSample bgSamples).map fun bg => ⟨textSample, bg⟩

end SpecRandom

/-! ## General lemmas about the style extraction -/

lemma jsIncludes_iff (sub s : List Char) : jsIncludes s sub = true ↔ sub <:+: s := by
  induction s with
  | nil => simp [jsIncludes, List.isEmpty_iff]
  | cons c t ih => simp [jsIncludes, ih, List.infix_cons_iff, List.isPrefixOf_iff_prefix]

lemma styleFormula_ext (cc : Option ColorConfig) {f g : ℕ → Option (Option ℤ)} :
    ∀ (l : List Char) (k0 : ℕ), (∀ k, k0 ≤ k → k < k0 + l.length → f k = g k) →
      styleFormula cc f l k0 = styleFormula cc g l k0 := by
  intro l
  induction l with
  | nil => intro k0 _; rfl
  | cons c cs ih =>
      intro k0 h
      have h0 : f k0 = g k0 := h k0 le_rfl (by simp only [List.length_cons]; omega)
      simp only [styleFormula, h0]
      rw [ih (k0 + 1) (fun k hk1 hk2 => h k (by omega)
        (by simp only [List.length_cons]; omega))]

lemma styleFormula_get? (cc : Option ColorConfig) (f : ℕ → Option (Option ℤ)) :
    ∀ (l : List Char) (k0 k : ℕ),
      (styleFormula cc f l k0).get? k =
        (l.get? k).map fun c =>
          ⟨cc.map fun cfg => cfg.colors.getD ((k0 + k) % cfg.colors.length) "",
           f (k0 + k), c⟩ := by
  intro l
  induction l with
  | nil => intro k0 k; simp [styleFormula]
  | cons c cs ih =>
      intro k0 k
      cases k with
      | zero => simp [styleFormula]
      | succ k =>
          simp only [styleFormula, List.get?_cons_succ, ih (k0 + 1) k]
          have : k0 + 1 + k = k0 + (k + 1) := by omega
          rw [this]

lemma nonSpaceInfos_append (ps qs : List Part) :
    nonSpaceInfos (ps ++ qs) = nonSpaceInfos ps ++ nonSpaceInfos qs := by
  simp [nonSpaceInfos, List.filterMap_append]

/-! ## Extraction lemmas: the refactored implementation -/

namespace Part000

lemma nonSpaceInfos_processChars (sin : ℚ → ℚ) (cc : Option ColorConfig)
    (sk : Option SizeKey) (opts : EffectOptions) (bs : ℚ) (total : ℕ) :
    ∀ (chars : List Char) (k0 : ℕ),
      nonSpaceInfos (processChars sin cc sk opts bs total chars k0) =
        styleFormula cc
          (fun k => sk.map fun key => sizeValue bs (getOffset sin key k total (spreadBaseSize opts bs)))
          (chars.filter (fun c => c != ' ')) k0 := by
  intro chars
  induction chars with
  | nil => intro k0; simp [processChars, nonSpaceInfos, styleFormula]
  | cons c rest ih =>
      intro k0
      by_cases hc : c = ' '
      · subst hc
        simpa [processChars, nonSpaceInfos, charInfo] using ih k0
      · rcases cc with _ | cfg <;> rcases sk with _ | key <;>
          simp only [Option.map_none', Option.map_some', nonSpaceInfos] at ih ⊢ <;>
          simp [processChars, charInfo, hc, styleFormula, ih]

lemma processChars_no_decor (sin : ℚ → ℚ) (cc : Option ColorConfig)
    (sk : Option SizeKey) (opts : EffectOptions) (bs : ℚ) (total : ℕ) :
    ∀ (chars : List Char) (k0 : ℕ) (p : Part),
      p ∈ processChars sin cc sk opts bs total chars k0 → p.isDecor = false := by
  intro chars
  induction chars with
  | nil => intro k0 p hp; simp [processChars] at hp
  | cons c rest ih =>
      intro k0 p hp
      by_cases hc : c = ' '
      · subst hc
        rw [show processChars sin cc sk opts bs total (' ' :: rest) k0
              = Part.space :: processChars sin cc sk opts bs total rest k0 by
            simp [processChars]] at hp
        rcases List.mem_cons.mp hp with h | h
        · rw [h]; rfl
        · exact ih k0 p h
      · simp only [processChars, if_neg hc] at hp
        rcases List.mem_cons.mp hp with h | h
        · rw [h]; split <;> rfl
        · exact ih (k0 + 1) p h

lemma processChars_textContent (sin : ℚ → ℚ) (cc : Option ColorConfig)
    (sk : Option SizeKey) (opts : EffectOptions) (bs : ℚ) (total : ℕ) :
    ∀ (chars : List Char) (k0 : ℕ),
      (processChars sin cc sk opts bs total chars k0).flatMap Part.textContent = chars := by
  intro chars
  induction chars with
  | nil => intro k0; simp [processChars]
  | cons c rest ih =>
      intro k0
      by_cases hc : c = ' '
      · subst hc
        simp [processChars, Part.textContent, ih k0]
      · simp only [processChars, if_neg hc, List.flatMap_cons]
        split <;> simp [Part.textContent, ih]

lemma combineParts_infos (sin : ℚ → ℚ) (text : List Char) (sel : Selection)
    (opts : EffectOptions) :
    nonSpaceInfos (combineParts sin text sel opts) =
      styleFormula (sel.color.map colorConfigOf)
        (sizeAtNonSpace sin sel.size opts (countNonSpace text))
        (text.filter (fun c => c != ' ')) 0 := by
  have hext : ∀ cc,
      styleFormula cc
        (fun k => sel.size.map fun key =>
          sizeValue (jsOrDefault opts.baseSize 16)
            (getOffset sin key k (countNonSpace text)
              (spreadBaseSize opts (jsOrDefault opts.baseSize 16))))
        (text.filter (fun c => c != ' ')) 0 =
      styleFormula cc (sizeAtNonSpace sin sel.size opts (countNonSpace text))
        (text.filter (fun c => c != ' ')) 0 := by
    intro cc
    exact styleFormula_ext cc _ _ (fun k _ _ => rfl)
  have hdec : ∀ s, nonSpaceInfos [Part.decor s] = [] := fun _ => rfl
  have hconsdec : ∀ s ps, nonSpaceInfos (Part.decor s :: ps) = nonSpaceInfos ps :=
    fun _ _ => rfl
  have hnil : nonSpaceInfos ([] : List Part) = [] := rfl
  rcases hcol : sel.color with _ | key
  · simpa [combineParts, hcol, nonSpaceInfos_append, nonSpaceInfos_processChars, hnil]
      using hext none
  · rcases key <;>
      simpa +decide [combineParts, hcol, colorConfigOf, rainbowConfig, flameConfig,
        flowerConfig, nonSpaceInfos_append, nonSpaceInfos_processChars, hdec, hconsdec, hnil]
        using hext _

end Part000

/-! ## Extraction lemmas: the legacy implementation -/

namespace EffectsJs

lemma buildGo_shift (cc : Option ColorConfig) (v : Option ℤ) (sv : List (Option ℤ)) :
    ∀ (chars : List Char) (i ci : ℕ),
      buildGo cc (v :: sv) chars (i + 1) ci = buildGo cc sv chars i ci := by
  intro chars
  induction chars with
  | nil => intro i ci; simp [buildGo]
  | cons c rest ih =>
      intro i ci
      by_cases hc : c = ' ' <;> simp [buildGo, hc, List.get?_cons_succ, ih]

lemma nonSpaceInfos_buildGo_sized (sin : ℚ → ℚ) (key : SizeKey) (inten bs : ℚ)
    (total : ℕ) (cc : Option ColorConfig) :
    ∀ (chars : List Char) (n : ℕ),
      nonSpaceInfos (buildGo cc (sizeValuesGo sin key inten bs total chars n) chars 0 n) =
        styleFormula cc (fun k => some (some (sizeValueAt sin key inten bs total k)))
          (chars.filter (fun c => c != ' ')) n := by
  have hshift1 : ∀ v sv chars ci, buildGo cc (v :: sv) chars 1 ci = buildGo cc sv chars 0 ci :=
    fun v sv chars ci => buildGo_shift cc v sv chars 0 ci
  have hspace : ∀ ps, nonSpaceInfos (Part.space :: ps) = nonSpaceInfos ps := fun _ => rfl
  intro chars
  induction chars with
  | nil => intro n; simp [sizeValuesGo, buildGo, nonSpaceInfos, styleFormula]
  | cons c rest ih =>
      intro n
      by_cases hc : c = ' '
      · subst hc
        have h1 : sizeValuesGo sin key inten bs total (' ' :: rest) n
            = none :: sizeValuesGo sin key inten bs total rest n := by
          simp [sizeValuesGo]
        have h2 : buildGo cc (none :: sizeValuesGo sin key inten bs total rest n)
              (' ' :: rest) 0 n
            = Part.space :: buildGo cc (none :: sizeValuesGo sin key inten bs total rest n)
                rest 1 n := by
          simp [buildGo]
        rw [h1, h2, hshift1, hspace]
        simpa using ih n
      · have h1 : sizeValuesGo sin key inten bs total (c :: rest) n
            = some (sizeValueAt sin key inten bs total n)
                :: sizeValuesGo sin key inten bs total rest (n + 1) := by
          simp [sizeValuesGo, hc]
        have h2 : buildGo cc (some (sizeValueAt sin key inten bs total n)
              :: sizeValuesGo sin key inten bs total rest (n + 1)) (c :: rest) 0 n
            = Part.styled (cc.map fun cfg => cfg.colors.getD (n % cfg.colors.length) "")
                (some (some (sizeValueAt sin key inten bs total n))) c
              :: buildGo cc (some (sizeValueAt sin key inten bs total n)
                  :: sizeValuesGo sin key inten bs total rest (n + 1)) rest 1 (n + 1) := by
          simp [buildGo, hc]
        rw [h1, h2, hshift1]
        have h3 : (c :: rest).filter (fun c => c != ' ') = c :: rest.filter (fun c => c != ' ') := by
          simp [hc]
        rw [h3]
        simp only [styleFormula]
        rw [show nonSpaceInfos (Part.styled (cc.map fun cfg => cfg.colors.getD (n % cfg.colors.length) "")
              (some (some (sizeValueAt sin key inten bs total n))) c
              :: buildGo cc (sizeValuesGo sin key inten bs total rest (n + 1)) rest 0 (n + 1))
            = (⟨cc.map fun cfg => cfg.colors.getD (n % cfg.colors.length) "",
                some (some (sizeValueAt sin key inten bs total n)), c⟩ : CharStyle)
              :: nonSpaceInfos (buildGo cc (sizeValuesGo sin key inten bs total rest (n + 1)) rest 0 (n + 1)) from rfl]
        rw [ih (n + 1)]

lemma nonSpaceInfos_buildGo_nosize (cc : Option ColorConfig) :
    ∀ (chars : List Char) (i ci : ℕ),
      nonSpaceInfos (buildGo cc [] chars i ci) =
        styleFormula cc (fun _ => none) (chars.filter (fun c => c != ' ')) ci := by
  intro chars
  induction chars with
  | nil => intro i ci; simp [buildGo, nonSpaceInfos, styleFormula]
  | cons c rest ih =>
      intro i ci
      by_cases hc : c = ' '
      · subst hc
        simpa [buildGo, nonSpaceInfos, charInfo] using ih (i + 1) ci
      · rcases cc with _ | cfg <;>
          simp only [nonSpaceInfos] at ih ⊢ <;>
          simp [buildGo, hc, charInfo, styleFormula, ih]

lemma legacyCombineParts_infos (sin : ℚ → ℚ) (text : List Char) (sel : Selection)
    (opts : EffectOptions) :
    nonSpaceInfos (combineParts sin text sel opts) =
      styleFormula (sel.color.map colorConfigOf)
        (sizeAtNonSpace sin sel.size opts (countNonSpace text))
        (text.filter (fun c => c != ' ')) 0 := by
  have hdec : ∀ s, nonSpaceInfos [Part.decor s] = [] := fun _ => rfl
  have hconsdec : ∀ s ps, nonSpaceInfos (Part.decor s :: ps) = nonSpaceInfos ps :=
    fun _ _ => rfl
  have hnil : nonSpaceInfos ([] : List Part) = [] := rfl
  rcases hsz : sel.size with _ | key
  · have hextN : ∀ cc, styleFormula cc (fun _ => none) (text.filter (fun c => c != ' ')) 0
        = styleFormula cc (sizeAtNonSpace sin none opts (countNonSpace text))
            (text.filter (fun c => c != ' ')) 0 :=
      fun cc => styleFormula_ext cc _ _ (fun k _ _ => rfl)
    rcases hcol : sel.color with _ | ckey
    · simpa [combineParts, hcol, hsz, nonSpaceInfos_append, nonSpaceInfos_buildGo_nosize, hnil]
        using hextN none
    · rcases ckey <;>
        simpa +decide [combineParts, hcol, hsz, colorConfigOf, rainbowConfig, flameConfig,
          flowerConfig, nonSpaceInfos_append, nonSpaceInfos_buildGo_nosize, hdec, hconsdec, hnil]
          using hextN _
  · have hextS : ∀ cc, styleFormula cc
        (fun k => some (some (sizeValueAt sin key (jsOrDefault opts.intensity 5)
          (jsOrDefault opts.baseSize 16) (countNonSpace text) k)))
        (text.filter (fun c => c != ' ')) 0
        = styleFormula cc (sizeAtNonSpace sin (some key) opts (countNonSpace text))
            (text.filter (fun c => c != ' ')) 0 :=
      fun cc => styleFormula_ext cc _ _ (fun k _ _ => rfl)
    rcases hcol : sel.color with _ | ckey
    · simpa [combineParts, hcol, hsz, nonSpaceInfos_append, nonSpaceInfos_buildGo_sized, hnil]
        using hextS none
    · rcases ckey <;>
        simpa +decide [combineParts, hcol, hsz, colorConfigOf, rainbowConfig, flameConfig,
          flowerConfig, nonSpaceInfos_append, nonSpaceInfos_buildGo_sized, hdec, hconsdec, hnil]
          using hextS _

end EffectsJs

/-! ## Arithmetic facts about the size curves -/

lemma one_le_curveDenominator (total : ℕ) : 1 ≤ curveDenominator total := le_max_left _ _

lemma curveDenominator_cast_pos (total : ℕ) :
    (0 : ℚ) < ((curveDenominator total : ℤ) : ℚ) := by
  have h := one_le_curveDenominator total
  exact_mod_cast lt_of_lt_of_le Int.zero_lt_one h

lemma progress_nonneg (k total : ℕ) :
    0 ≤ (k : ℚ) / ((curveDenominator total : ℤ) : ℚ) :=
  div_nonneg (by positivity) (le_of_lt (curveDenominator_cast_pos total))

lemma progress_le_one {k total : ℕ} (h : k < total) :
    (k : ℚ) / ((curveDenominator total : ℤ) : ℚ) ≤ 1 := by
  rw [div_le_one (curveDenominator_cast_pos total)]
  have hk : (k : ℤ) ≤ curveDenominator total := by
    unfold curveDenominator; omega
  exact_mod_cast hk

lemma jsRound_ge {x : ℚ} {n : ℤ} (h : (n : ℚ) ≤ x) : n ≤ jsRound x := by
  unfold jsRound
  rw [Int.le_floor]
  have h2 : (0 : ℚ) ≤ 1/2 := by norm_num
  linarith

lemma rise_arg_ge {b i p : ℚ} (hb : 8 ≤ b) (hi : 0 ≤ i) (hp : 0 ≤ p) :
    (8 : ℚ) ≤ b + p * ((b + i * 4) - b) := by nlinarith

lemma fall_arg_ge {b i p : ℚ} (hb : 8 ≤ b) (hi : 0 ≤ i) (hp0 : 0 ≤ p) (hp1 : p ≤ 1) :
    (8 : ℚ) ≤ (b + i * 4) - p * ((b + i * 4) - max 8 (b - i)) := by
  have hm8 : (8 : ℚ) ≤ max 8 (b - i) := le_max_left _ _
  have hms : max 8 (b - i) ≤ b + i * 4 := by
    rcases max_cases (8 : ℚ) (b - i) with ⟨h1, _⟩ | ⟨h1, _⟩ <;> rw [h1] <;> linarith
  nlinarith [mul_nonneg (sub_nonneg.mpr hp1) (sub_nonneg.mpr hms)]

lemma jsOrDefault_some_ne {x d : ℚ} (hx : x ≠ 0) : jsOrDefault (some x) d = x := by
  simp [jsOrDefault, hx]

/-- On the claimed parameter ranges the per-character sizes of the two
implementations coincide: the refactored version's `max 8` clamp is inert
because the legacy value is already at least 8. -/
lemma size_impl_eq (sin : ℚ → ℚ) (key : SizeKey) {i b : ℚ} (hi : 1 ≤ i) (hb : 8 ≤ b)
    {total k : ℕ} (hk : k < total) :
    Part000.sizeValue b (Part000.getOffset sin key k total ⟨some i, some b⟩) =
      some (EffectsJs.sizeValueAt sin key i b total k) := by
  have hp0 := progress_nonneg k total
  have hp1 := progress_le_one hk
  have hi0 : (0 : ℚ) ≤ i := by linarith
  have hrise : ((8 : ℤ) : ℚ) ≤ b + (k : ℚ) / ((curveDenominator total : ℤ) : ℚ)
      * ((b + i * 4) - b) := by
    push_cast
    exact rise_arg_ge hb hi0 hp0
  have hfall : ((8 : ℤ) : ℚ) ≤ (b + i * 4) - (k : ℚ) / ((curveDenominator total : ℤ) : ℚ)
      * ((b + i * 4) - max 8 (b - i)) := by
    push_cast
    exact fall_arg_ge hb hi0 hp0 hp1
  rcases key with _ | _ | _
  · simp [Part000.sizeValue, Part000.getOffset, EffectsJs.sizeValueAt]
  · simp only [Part000.sizeValue, Part000.getOffset, EffectsJs.sizeValueAt, Option.map_some']
    congr 1
    exact max_eq_right (jsRound_ge hrise)
  · simp only [Part000.sizeValue, Part000.getOffset, EffectsJs.sizeValueAt, Option.map_some']
    congr 1
    rw [show b + ((b + i * 4 - (k : ℚ) / ((curveDenominator total : ℤ) : ℚ)
          * ((b + i * 4) - max 8 (b - i))) - b)
        = (b + i * 4) - (k : ℚ) / ((curveDenominator total : ℤ) : ℚ)
          * ((b + i * 4) - max 8 (b - i)) from by ring]
    exact max_eq_right (jsRound_ge hfall)

/-- On the claimed parameter ranges every size the legacy implementation
computes is at least 8. -/
lemma effectsjs_sizeValueAt_ge (sin : ℚ → ℚ) (key : SizeKey) {i b : ℚ} (hi : 1 ≤ i)
    (hb : 8 ≤ b) {total k : ℕ} (hk : k < total) :
    8 ≤ EffectsJs.sizeValueAt sin key i b total k := by
  have hi0 : (0 : ℚ) ≤ i := by linarith
  have hrise : ((8 : ℤ) : ℚ) ≤ b + (k : ℚ) / ((curveDenominator total : ℤ) : ℚ)
      * ((b + i * 4) - b) := by
    push_cast
    exact rise_arg_ge hb hi0 (progress_nonneg k total)
  have hfall : ((8 : ℤ) : ℚ) ≤ (b + i * 4) - (k : ℚ) / ((curveDenominator total : ℤ) : ℚ)
      * ((b + i * 4) - max 8 (b - i)) := by
    push_cast
    exact fall_arg_ge hb hi0 (progress_nonneg k total) (progress_le_one hk)
  rcases key with _ | _ | _
  · exact le_max_left _ _
  · exact jsRound_ge hrise
  · exact jsRound_ge hfall

/-! ## Claim theorems -/

/-- C10: for every text, every selection with color in `{rainbow, flame, flower}`
or null and size in `{wave, rise, fall}` or null, and options with intensity an
integer in `[1,10]` and baseSize an integer in `[8,100]`, the two
`combineEffects` implementations (`src/effects.js` and `src/unnamed/part_000`)
assign the same color value and the same font-size value to each corresponding
non-space character. -/
theorem c10_implementations_agree (sin : ℚ → ℚ) (text : List Char) (sel : Selection)
    (opts : EffectOptions) (i b : ℤ)
    (hoi : opts.intensity = some (i : ℚ)) (hob : opts.baseSize = some (b : ℚ))
    (hi1 : 1 ≤ i) (hi10 : i ≤ 10) (hb8 : 8 ≤ b) (hb100 : b ≤ 100) :
    nonSpaceInfos (Part000.combineParts sin text sel opts) =
      nonSpaceInfos (EffectsJs.combineParts sin text sel opts) := by
  have hiq : (1 : ℚ) ≤ ((i : ℤ) : ℚ) := by exact_mod_cast hi1
  have hbq : (8 : ℚ) ≤ ((b : ℤ) : ℚ) := by exact_mod_cast hb8
  have hbne : ((b : ℤ) : ℚ) ≠ 0 := by intro h; rw [h] at hbq; norm_num at hbq
  have hine : ((i : ℤ) : ℚ) ≠ 0 := by intro h; rw [h] at hiq; norm_num at hiq
  have hjb : jsOrDefault opts.baseSize 16 = ((b : ℤ) : ℚ) := by
    rw [hob]; exact jsOrDefault_some_ne hbne
  have hji : jsOrDefault opts.intensity 5 = ((i : ℤ) : ℚ) := by
    rw [hoi]; exact jsOrDefault_some_ne hine
  have hspread : Part000.spreadBaseSize opts ((b : ℤ) : ℚ)
      = ⟨some ((i : ℤ) : ℚ), some ((b : ℤ) : ℚ)⟩ := by
    cases opts; simp_all [Part000.spreadBaseSize]
  rw [Part000.combineParts_infos, EffectsJs.legacyCombineParts_infos]
  apply styleFormula_ext
  intro k _ hk2
  have hk : k < countNonSpace text := by simpa [countNonSpace] using hk2
  rcases hsz : sel.size with _ | key
  · simp [Part000.sizeAtNonSpace, EffectsJs.sizeAtNonSpace]
  · simp only [Part000.sizeAtNonSpace, EffectsJs.sizeAtNonSpace, Option.map_some',
      hjb, hji, hspread]
    exact congrArg some (size_impl_eq sin key hiq hbq hk)

/-- C10 witness: the equivalence applied at a concrete text, selection and
options. -/
theorem c10_implementations_agree_witness :
    nonSpaceInfos (Part000.combineParts (fun _ => 0) ['a', 'b', ' ', 'c']
        ⟨some .rainbow, some .rise⟩ ⟨some 5, some 16⟩) =
      nonSpaceInfos (EffectsJs.combineParts (fun _ => 0) ['a', 'b', ' ', 'c']
        ⟨some .rainbow, some .rise⟩ ⟨some 5, some 16⟩) :=
  c10_implementations_agree (fun _ => 0) ['a', 'b', ' ', 'c']
    ⟨some .rainbow, some .rise⟩ ⟨some 5, some 16⟩ 5 16
    (by norm_num) (by norm_num) (by norm_num) (by norm_num) (by norm_num) (by norm_num)

/-- C1: for every text, every size effect in the catalog (wave, rise, fall),
optionally combined with any color effect, and options with intensity an
integer in `[1,10]` and baseSize an integer in `[8,100]`, every font-size value
emitted by `combineEffects` (in either implementation) is at least 8. -/
theorem c1_font_size_floor (sin : ℚ → ℚ) (text : List Char) (ck : Option ColorKey)
    (sk : SizeKey) (opts : EffectOptions) (i b : ℤ)
    (hoi : opts.intensity = some (i : ℚ)) (hob : opts.baseSize = some (b : ℚ))
    (hi1 : 1 ≤ i) (hi10 : i ≤ 10) (hb8 : 8 ≤ b) (hb100 : b ≤ 100) :
    (∀ k st,
       (nonSpaceInfos (Part000.combineParts sin text ⟨ck, some sk⟩ opts)).get? k = some st →
       ∃ v : ℤ, st.fontSize = some (some v) ∧ 8 ≤ v) ∧
    (∀ k st,
       (nonSpaceInfos (EffectsJs.combineParts sin text ⟨ck, some sk⟩ opts)).get? k = some st →
       ∃ v : ℤ, st.fontSize = some (some v) ∧ 8 ≤ v) := by
  have hiq : (1 : ℚ) ≤ ((i : ℤ) : ℚ) := by exact_mod_cast hi1
  have hbq : (8 : ℚ) ≤ ((b : ℤ) : ℚ) := by exact_mod_cast hb8
  have hbne : ((b : ℤ) : ℚ) ≠ 0 := by intro h; rw [h] at hbq; norm_num at hbq
  have hine : ((i : ℤ) : ℚ) ≠ 0 := by intro h; rw [h] at hiq; norm_num at hiq
  have hjb : jsOrDefault opts.baseSize 16 = ((b : ℤ) : ℚ) := by
    rw [hob]; exact jsOrDefault_some_ne hbne
  have hji : jsOrDefault opts.intensity 5 = ((i : ℤ) : ℚ) := by
    rw [hoi]; exact jsOrDefault_some_ne hine
  have hspread : Part000.spreadBaseSize opts ((b : ℤ) : ℚ)
      = ⟨some ((i : ℤ) : ℚ), some ((b : ℤ) : ℚ)⟩ := by
    cases opts; simp_all [Part000.spreadBaseSize]
  constructor
  · intro k st hst
    rw [Part000.combineParts_infos, styleFormula_get?] at hst
    simp only [zero_add] at hst
    rcases Option.map_eq_some'.mp hst with ⟨c, hc, hstc⟩
    obtain ⟨hlt, -⟩ := List.get?_eq_some.mp hc
    have hk : k < countNonSpace text := hlt
    refine ⟨EffectsJs.sizeValueAt sin sk ((i : ℤ) : ℚ) ((b : ℤ) : ℚ) (countNonSpace text) k,
      ?_, effectsjs_sizeValueAt_ge sin sk hiq hbq hk⟩
    rw [← hstc]
    dsimp only
    simp only [Part000.sizeAtNonSpace, hjb, hspread, Option.map_some']
    exact congrArg some (size_impl_eq sin sk hiq hbq hk)
  · intro k st hst
    rw [EffectsJs.legacyCombineParts_infos, styleFormula_get?] at hst
    simp only [zero_add] at hst
    rcases Option.map_eq_some'.mp hst with ⟨c, hc, hstc⟩
    obtain ⟨hlt, -⟩ := List.get?_eq_some.mp hc
    have hk : k < countNonSpace text := hlt
    refine ⟨EffectsJs.sizeValueAt sin sk ((i : ℤ) : ℚ) ((b : ℤ) : ℚ) (countNonSpace text) k,
      ?_, effectsjs_sizeValueAt_ge sin sk hiq hbq hk⟩
    rw [← hstc]
    dsimp only
    simp only [EffectsJs.sizeAtNonSpace, hjb, hji, Option.map_some']

/-- C1 witness: the floor theorem applied at a concrete text, effect pair and
options (the first character of "hi" under flame+fall at intensity 5, base 16
gets size 36 ≥ 8). -/
theorem c1_font_size_floor_witness :
    ∃ v : ℤ, (⟨some "#ffff00", some (some 36), 'h'⟩ : CharStyle).fontSize
        = some (some v) ∧ 8 ≤ v :=
  (c1_font_size_floor (fun _ => 0) ['h', 'i'] (some .flame) .fall ⟨some 5, some 16⟩ 5 16
    (by norm_num) (by norm_num) (by norm_num) (by norm_num) (by norm_num) (by norm_num)).1
    0 ⟨some "#ffff00", some (some 36), 'h'⟩ (by with_unfolding_all rfl)

/-- C5: for every text and the rainbow color effect (7-color palette), the
color the composition engine assigns to the `k`-th non-space character is
`colors[k mod 7]` — cycling is driven by the non-space index, so spaces do not
advance the cycle — and the `k`-th and `(k+7)`-th non-space characters receive
the same color; this holds in both implementations. -/
theorem c5_rainbow_cycle (sin : ℚ → ℚ) (text : List Char) (sz : Option SizeKey)
    (opts : EffectOptions) :
    (∀ k st,
       (nonSpaceInfos (Part000.combineParts sin text ⟨some .rainbow, sz⟩ opts)).get? k
         = some st →
       st.color = some (rainbowConfig.colors.getD (k % 7) "")) ∧
    (∀ k st st',
       (nonSpaceInfos (Part000.combineParts sin text ⟨some .rainbow, sz⟩ opts)).get? k
         = some st →
       (nonSpaceInfos (Part000.combineParts sin text ⟨some .rainbow, sz⟩ opts)).get? (k + 7)
         = some st' →
       st'.color = st.color) ∧
    (∀ k st,
       (nonSpaceInfos (EffectsJs.combineParts sin text ⟨some .rainbow, sz⟩ opts)).get? k
         = some st →
       st.color = some (rainbowConfig.colors.getD (k % 7) "")) ∧
    (∀ k st st',
       (nonSpaceInfos (EffectsJs.combineParts sin text ⟨some .rainbow, sz⟩ opts)).get? k
         = some st →
       (nonSpaceInfos (EffectsJs.combineParts sin text ⟨some .rainbow, sz⟩ opts)).get? (k + 7)
         = some st' →
       st'.color = st.color) := by
  have hcolor : ∀ (L : List CharStyle) (f : ℕ → Option (Option ℤ)),
      L = styleFormula (some rainbowConfig) f (text.filter (fun c => c != ' ')) 0 →
      ∀ k st, L.get? k = some st → st.color = some (rainbowConfig.colors.getD (k % 7) "") := by
    intro L f hL k st hst
    rw [hL, styleFormula_get?] at hst
    simp only [zero_add] at hst
    rcases Option.map_eq_some'.mp hst with ⟨c, _, hstc⟩
    rw [← hstc]
    simp [rainbowConfig]
  have h000 := Part000.combineParts_infos sin text ⟨some .rainbow, sz⟩ opts
  have hejs := EffectsJs.legacyCombineParts_infos sin text ⟨some .rainbow, sz⟩ opts
  have h000' := hcolor _ _ h000
  have hejs' := hcolor _ _ hejs
  refine ⟨h000', ?_, hejs', ?_⟩
  · intro k st st' h1 h2
    rw [h000' k st h1, h000' (k + 7) st' h2, Nat.add_mod_right]
  · intro k st st' h1 h2
    rw [hejs' k st h1, hejs' (k + 7) st' h2, Nat.add_mod_right]

/-- Both curve offsets are defined (no NaN) once intensity and baseSize are. -/
lemma Part000.getOffset_defined (sin : ℚ → ℚ) (key : SizeKey) (k total : ℕ) (i b : ℚ) :
    ∃ off, Part000.getOffset sin key k total ⟨some i, some b⟩ = some off := by
  rcases key <;> exact ⟨_, rfl⟩

/-- C3 (code-bug evidence): with `options = {}` the refactored `combineEffects`
forwards `{ ...options, baseSize }` to `getOffset`, so the curve function
receives an options object whose `intensity` is still undefined (the defaulted
local `intensity` of the source is dead), and every emitted font size is NaN. -/
theorem c3_undefined_intensity_reaches_curve (sin : ℚ → ℚ) :
    (Part000.spreadBaseSize ⟨none, none⟩ (jsOrDefault (none : Option ℚ) 16)).intensity
        = none ∧
    Part000.getOffset sin .wave 0 2 (Part000.spreadBaseSize ⟨none, none⟩ 16) = none ∧
    Part000.combineParts sin ['a', 'b'] ⟨none, some .wave⟩ ⟨none, none⟩ =
      [Part.styled none (some none) 'a', Part.styled none (some none) 'b'] :=
  ⟨rfl, rfl, rfl⟩

/-- C3 witness: the NaN evaluation at a concrete `sin`. -/
theorem c3_undefined_intensity_reaches_curve_witness :
    Part000.combineParts (fun _ => 0) ['a', 'b'] ⟨none, some .wave⟩ ⟨none, none⟩ =
      [Part.styled none (some none) 'a', Part.styled none (some none) 'b'] :=
  (c3_undefined_intensity_reaches_curve (fun _ => 0)).2.2

/-- C8: the rise/fall curves divide by `max 1 (total - 1) ≥ 1` — never zero —
and on empty, all-space or single-non-space inputs: an all-space text yields no
styled character at all (in both implementations), the single character's
progress fraction is `0` so rise starts at `baseSize` and fall at `maxSize`,
and (with a defined intensity) no NaN size is produced. -/
theorem c8_degenerate_inputs (sin : ℚ → ℚ) :
    (∀ total : ℕ, 1 ≤ curveDenominator total) ∧
    curveDenominator 0 = 1 ∧ curveDenominator 1 = 1 ∧
    (∀ i b : ℚ,
       Part000.getOffset sin .rise 0 1 ⟨some i, some b⟩ = some 0 ∧
       Part000.sizeValue b (Part000.getOffset sin .rise 0 1 ⟨some i, some b⟩)
         = some (max 8 (jsRound b)) ∧
       Part000.sizeValue b (Part000.getOffset sin .fall 0 1 ⟨some i, some b⟩)
         = some (max 8 (jsRound (b + i * 4)))) ∧
    (∀ (text : List Char) (sel : Selection) (opts : EffectOptions),
       (∀ c ∈ text, c = ' ') →
       nonSpaceInfos (Part000.combineParts sin text sel opts) = [] ∧
       nonSpaceInfos (EffectsJs.combineParts sin text sel opts) = []) ∧
    (∀ (text : List Char) (ck : Option ColorKey) (sk : SizeKey) (opts : EffectOptions)
       (i : ℚ), opts.intensity = some i → countNonSpace text ≤ 1 →
       ∀ k st,
         (nonSpaceInfos (Part000.combineParts sin text ⟨ck, some sk⟩ opts)).get? k = some st →
         ∃ v : ℤ, st.fontSize = some (some v)) := by
  refine ⟨one_le_curveDenominator, by decide, by decide, ?_, ?_, ?_⟩
  · intro i b
    refine ⟨?_, ?_, ?_⟩
    · simp [Part000.getOffset, curveDenominator]
    · simp [Part000.getOffset, Part000.sizeValue, curveDenominator]
    · simp only [Part000.getOffset, Part000.sizeValue, curveDenominator, Option.map_some']
      norm_num
  · intro text sel opts hsp
    have hfil : text.filter (fun c => c != ' ') = [] := by
      rw [List.filter_eq_nil_iff]
      intro c hc
      simp [hsp c hc]
    rw [Part000.combineParts_infos, EffectsJs.legacyCombineParts_infos, hfil]
    exact ⟨rfl, rfl⟩
  · intro text ck sk opts i hoi _ k st hst
    rw [Part000.combineParts_infos, styleFormula_get?] at hst
    rcases Option.map_eq_some'.mp hst with ⟨c, _, hstc⟩
    have hsome : (Part000.spreadBaseSize opts (jsOrDefault opts.baseSize 16))
        = ⟨some i, some (jsOrDefault opts.baseSize 16)⟩ := by
      cases opts; simp_all [Part000.spreadBaseSize]
    obtain ⟨off, hoff⟩ := Part000.getOffset_defined sin sk (0 + k) (countNonSpace text) i
      (jsOrDefault opts.baseSize 16)
    refine ⟨max 8 (jsRound (jsOrDefault opts.baseSize 16 + off)), ?_⟩
    rw [← hstc]
    dsimp only
    simp only [Part000.sizeAtNonSpace, hsome, Option.map_some', hoff, Part000.sizeValue]

/-- C8 witness: the all-space conjunct applied to a concrete two-space text,
and the single-character conjunct applied to the text "a" with wave. -/
theorem c8_degenerate_inputs_witness :
    nonSpaceInfos (Part000.combineParts (fun _ => 0) [' ', ' ']
        ⟨some .rainbow, some .wave⟩ ⟨some 5, some 16⟩) = [] ∧
    ∃ v : ℤ, (⟨none, some (some 16), 'a'⟩ : CharStyle).fontSize = some (some v) :=
  ⟨((c8_degenerate_inputs (fun _ => 0)).2.2.2.2.1 [' ', ' ']
      ⟨some .rainbow, some .wave⟩ ⟨some 5, some 16⟩ (by decide)).1,
   (c8_degenerate_inputs (fun _ => 0)).2.2.2.2.2 ['a'] none .wave ⟨some 5, some 16⟩ 5
     rfl (by decide) 0 ⟨none, some (some 16), 'a'⟩ (by with_unfolding_all rfl)⟩

/-- C9: stripping the decoration-marked spans from the rainbow rendering and
concatenating the remaining text content (per-character span contents plus bare
spaces) recovers exactly the input text; the decoration marker sits only on the
single prefix span and the single suffix span, never on an ordinary character
span. -/
theorem c9_decoration_stripping (sin : ℚ → ℚ) (text : List Char) (opts : EffectOptions) :
    ∃ mid : List Part,
      Part000.combineParts sin text ⟨some .rainbow, none⟩ opts =
        Part.decor rainbowConfig.decorationBefore :: mid
          ++ [Part.decor rainbowConfig.decorationAfter] ∧
      (∀ p ∈ mid, p.isDecor = false) ∧
      ((Part000.combineParts sin text ⟨some .rainbow, none⟩ opts).filter
          (fun p => !p.isDecor)).flatMap Part.textContent = text := by
  refine ⟨Part000.processChars sin (some rainbowConfig) none opts
    (jsOrDefault opts.baseSize 16) (countNonSpace text) text 0, ?_, ?_, ?_⟩
  · simp +decide [Part000.combineParts, colorConfigOf]
  · exact fun p hp => Part000.processChars_no_decor sin (some rainbowConfig) none opts
      (jsOrDefault opts.baseSize 16) (countNonSpace text) text 0 p hp
  · have heq : Part000.combineParts sin text ⟨some .rainbow, none⟩ opts
        = Part.decor rainbowConfig.decorationBefore
            :: Part000.processChars sin (some rainbowConfig) none opts
                (jsOrDefault opts.baseSize 16) (countNonSpace text) text 0
          ++ [Part.decor rainbowConfig.decorationAfter] := by
      simp +decide [Part000.combineParts, colorConfigOf]
    rw [heq]
    have hfil : ((Part.decor rainbowConfig.decorationBefore
          :: Part000.processChars sin (some rainbowConfig) none opts
              (jsOrDefault opts.baseSize 16) (countNonSpace text) text 0
          ++ [Part.decor rainbowConfig.decorationAfter]).filter (fun p => !p.isDecor))
        = Part000.processChars sin (some rainbowConfig) none opts
            (jsOrDefault opts.baseSize 16) (countNonSpace text) text 0 := by
      simp only [List.filter_append, List.filter_cons]
      have h1 : (Part.decor rainbowConfig.decorationBefore).isDecor = true := rfl
      have h2 : (Part.decor rainbowConfig.decorationAfter).isDecor = true := rfl
      simp only [h1, h2, Bool.not_true, List.filter_nil]
      rw [List.filter_eq_self.mpr]
      · simp
      · intro p hp
        simp [Part000.processChars_no_decor sin (some rainbowConfig) none opts
          (jsOrDefault opts.baseSize 16) (countNonSpace text) text 0 p hp]
    rw [hfil]
    exact Part000.processChars_textContent sin (some rainbowConfig) none opts
      (jsOrDefault opts.baseSize 16) (countNonSpace text) text 0

/-- C9 witness: the stripping theorem applied at the concrete text "h i". -/
theorem c9_decoration_stripping_witness :
    ∃ mid : List Part,
      Part000.combineParts (fun _ => 0) ['h', ' ', 'i'] ⟨some .rainbow, none⟩ ⟨none, none⟩ =
        Part.decor rainbowConfig.decorationBefore :: mid
          ++ [Part.decor rainbowConfig.decorationAfter] ∧
      (∀ p ∈ mid, p.isDecor = false) ∧
      ((Part000.combineParts (fun _ => 0) ['h', ' ', 'i'] ⟨some .rainbow, none⟩
          ⟨none, none⟩).filter (fun p => !p.isDecor)).flatMap Part.textContent
        = ['h', ' ', 'i'] :=
  c9_decoration_stripping (fun _ => 0) ['h', ' ', 'i'] ⟨none, none⟩

/-- A successful word match is at least one character long and no longer than
the scanned text. -/
lemma App.match_length_facts {word : List Char} {prev : Option Char} {c : Char}
    {rest : List Char}
    (hm : (!word.isEmpty && App.matchOk word prev (c :: rest)) = true) :
    1 ≤ word.length ∧ word.length ≤ (c :: rest).length := by
  have hm' := hm
  simp only [App.matchOk, Bool.and_eq_true, Bool.not_eq_true'] at hm'
  obtain ⟨hne, ⟨_, hpre⟩, _⟩ := hm'
  constructor
  · rcases word with _ | ⟨w, ws⟩
    · simp at hne
    · simp
  · exact (List.isPrefixOf_iff_prefix.mp hpre).length_le

/-- A scan that finds no match site leaves the string unchanged. -/
lemma App.replaceScan_of_countMatches_zero (word repl : List Char) (global : Bool) :
    ∀ (prev : Option Char) (s : List Char),
      App.countMatches word prev s = 0 → App.replaceScan word repl global prev s = s := by
  intro prev s
  induction prev, s using App.countMatches.induct word with
  | case1 prev => intro _; rw [App.replaceScan]
  | case2 prev c rest hm ih =>
      intro hc
      rw [App.countMatches, if_pos hm] at hc
      omega
  | case3 prev c rest hm ih =>
      intro hc
      rw [App.countMatches, if_neg hm] at hc
      rw [App.replaceScan, if_neg hm, ih hc]

/-- The global scan substitutes `repl` for the word at *every* match site:
length accounting over all `countMatches` sites. -/
lemma App.replaceScan_global_length (word repl : List Char) :
    ∀ (prev : Option Char) (s : List Char),
      (App.replaceScan word repl true prev s).length
          + word.length * App.countMatches word prev s =
        s.length + repl.length * App.countMatches word prev s := by
  intro prev s
  induction prev, s using App.countMatches.induct word with
  | case1 prev => rw [App.replaceScan, App.countMatches]; simp
  | case2 prev c rest hm ih =>
      obtain ⟨hw, hpre'⟩ := App.match_length_facts hm
      rw [App.countMatches, if_pos hm, App.replaceScan, if_pos hm, if_pos rfl]
      simp only [List.length_append, List.length_drop, List.length_cons] at *
      rw [Nat.mul_add, Nat.mul_add]
      omega
  | case3 prev c rest hm ih =>
      rw [App.countMatches, if_neg hm, App.replaceScan, if_neg hm]
      simp only [List.length_cons]
      omega

/-- The non-global scan substitutes at most the first match site. -/
lemma App.replaceScan_first_length (word repl : List Char) :
    ∀ (prev : Option Char) (s : List Char), 1 ≤ App.countMatches word prev s →
      (App.replaceScan word repl false prev s).length + word.length
        = s.length + repl.length := by
  intro prev s
  induction prev, s using App.countMatches.induct word with
  | case1 prev => intro hc; rw [App.countMatches] at hc; omega
  | case2 prev c rest hm ih =>
      intro _
      obtain ⟨hw, hpre'⟩ := App.match_length_facts hm
      rw [App.replaceScan, if_pos hm, if_neg (by simp)]
      simp only [List.length_append, List.length_drop, List.length_cons] at *
      omega
  | case3 prev c rest hm ih =>
      intro hc
      rw [App.countMatches, if_neg hm] at hc
      rw [App.replaceScan, if_neg hm]
      simp only [List.length_cons]
      have := ih hc
      omega

/-- C2 counterexample: the claim says only the *first* word-boundary occurrence
of a selected word is patched and later ones stay unchanged; on the markup
`"cat cat"` with selected word `"cat"` (styled rendering abstracted to `"X"`)
the code patches *both* occurrences, so the result is `"X X"`, not `"X cat"`. -/
theorem c2_counterexample_global_patch :
    App.applyColorToWords (fun _ => ['X']) [['c', 'a', 't']] "cat cat".toList
        = "X X".toList ∧
    App.applyColorToWords (fun _ => ['X']) [['c', 'a', 't']] "cat cat".toList
        ≠ "X cat".toList := by
  have h1 : App.applyColorToWords (fun _ => ['X']) [['c', 'a', 't']] "cat cat".toList
      = "X X".toList := by with_unfolding_all rfl
  exact ⟨h1, by rw [h1]; decide⟩

/-- C2 (amended): `applyColorToWords` patches *every* verbatim word-boundary
occurrence outside of tags of each selected word — its per-word regex carries
the global flag — while `applyEmojisToEditor` is the non-global, first-
occurrence patcher; distinct selected words are still patched independently,
one global pass per word. -/
theorem c2_amended_every_occurrence_patched :
    (∀ (styleOf : List Char → List Char) (w h : List Char),
       App.applyColorToWords styleOf [w] h = App.jsReplaceWord true w (styleOf w) h) ∧
    (∀ (word repl : List Char) (prev : Option Char) (s : List Char),
       (App.replaceScan word repl true prev s).length
           + word.length * App.countMatches word prev s =
         s.length + repl.length * App.countMatches word prev s) ∧
    (∀ (word repl : List Char) (global : Bool) (prev : Option Char) (s : List Char),
       App.countMatches word prev s = 0 →
       App.replaceScan word repl global prev s = s) ∧
    (∀ (word repl : List Char) (prev : Option Char) (s : List Char),
       1 ≤ App.countMatches word prev s →
       (App.replaceScan word repl false prev s).length + word.length
         = s.length + repl.length) ∧
    App.countMatches ['c', 'a', 't'] none "cat cat".toList = 2 ∧
    App.applyColorToWords (fun _ => ['X']) [['c', 'a', 't'], ['d', 'o', 'g']]
        "cat dog".toList = "X X".toList ∧
    App.applyEmojisToEditor [(['c', 'a', 't'], ['E'])] "cat cat".toList
        = "cat E cat".toList := by
  refine ⟨fun _ _ _ => rfl, App.replaceScan_global_length,
    fun w r g => App.replaceScan_of_countMatches_zero w r g,
    App.replaceScan_first_length, ?_, ?_, ?_⟩
  · with_unfolding_all rfl
  · with_unfolding_all rfl
  · with_unfolding_all rfl

/-- C2 amended witness: the non-global single-substitution bound applied at a
concrete input with one match. -/
theorem c2_amended_every_occurrence_patched_witness :
    (App.replaceScan ['c', 'a', 't'] ['X'] false none "a cat".toList).length
        + (['c', 'a', 't'] : List Char).length
      = "a cat".toList.length + (['X'] : List Char).length :=
  (c2_amended_every_occurrence_patched).2.2.2.1 ['c', 'a', 't'] ['X'] none "a cat".toList
    (by with_unfolding_all rfl)

lemma SpecRandom.resampleUntilDifferent_ne (textColor : String) :
    ∀ (samples : List String) (bg : String),
      SpecRandom.resampleUntilDifferent textColor samples = some bg → bg ≠ textColor := by
  intro samples
  induction samples with
  | nil => intro bg h; simp [SpecRandom.resampleUntilDifferent] at h
  | cons s rest ih =>
      intro bg h
      rw [SpecRandom.resampleUntilDifferent] at h
      by_cases hs : s = textColor
      · rw [if_pos hs] at h
        exact ih bg h
      · rw [if_neg hs] at h
        rcases h with ⟨rfl⟩
        exact hs

/-- C4 (modelled from the spec, §4.3: the simple mode is absent from `src/`):
when both a uniform text color and a uniform background color are selected,
the background is resampled until it differs from the text color, so the
resolved choice never assigns the same value to both. -/
theorem c4_contrast_invariant (textSample : String) (bgSamples : List String)
    (choice : SpecRandom.SimpleBothChoice)
    (h : SpecRandom.simpleModeBoth textSample bgSamples = some choice) :
    choice.bgColor ≠ choice.textColor ∧ choice.textColor = textSample := by
  obtain ⟨bg, hbg, hchoice⟩ := Option.map_eq_some'.mp h
  have hne : bg ≠ textSample :=
    SpecRandom.resampleUntilDifferent_ne textSample bgSamples bg hbg
  rw [← hchoice]
  exact ⟨hne, rfl⟩

/-- C4 witness: the contrast invariant applied at a concrete resampling run
(first background sample collides, the second is kept). -/
theorem c4_contrast_invariant_witness :
    (SpecRandom.SimpleBothChoice.mk "red" "blue").bgColor
        ≠ (SpecRandom.SimpleBothChoice.mk "red" "blue").textColor ∧
    (SpecRandom.SimpleBothChoice.mk "red" "blue").textColor = "red" :=
  c4_contrast_invariant "red" ["red", "blue"] ⟨"red", "blue"⟩ (by decide)

/-- C6: the ranked-model fallback shared by `analyzeTextForColoring` and
`getEmojiForText`: models are attempted strictly in rank order (the attempted
list is a prefix of the ranked list); a quota/429 failure records the error
and falls through to the next-ranked model; a non-quota failure is thrown at
once without attempting any later model; an exhausted list throws the last
recorded error or the generic "All models failed"; and with two quota failures
followed by a success the result carries the third model's identifier. -/
theorem c6_model_fallback {α β : Type} :
    (∀ (attempt : String → AiService.CallOutcome α) (validate : α → Option β)
       (lastError : Option (List Char)),
       AiService.modelFallbackLoop attempt validate [] lastError
         = .error (lastError.getD AiService.allModelsFailed)) ∧
    (∀ (attempt : String → AiService.CallOutcome α) (validate : α → Option β)
       (m : String) (rest : List String) (lastError : Option (List Char)) msg,
       attempt m = .error msg → AiService.isQuotaMessage msg = true →
       AiService.modelFallbackLoop attempt validate (m :: rest) lastError
           = AiService.modelFallbackLoop attempt validate rest (some msg) ∧
       AiService.attemptedModels attempt validate (m :: rest)
           = m :: AiService.attemptedModels attempt validate rest) ∧
    (∀ (attempt : String → AiService.CallOutcome α) (validate : α → Option β)
       (m : String) (rest : List String) (lastError : Option (List Char)) msg,
       attempt m = .error msg → AiService.isQuotaMessage msg = false →
       AiService.modelFallbackLoop attempt validate (m :: rest) lastError
           = .error msg ∧
       AiService.attemptedModels attempt validate (m :: rest) = [m]) ∧
    (∀ (attempt : String → AiService.CallOutcome α) (validate : α → Option β)
       (models : List String),
       AiService.attemptedModels attempt validate models <+: models) ∧
    (∀ (attempt : String → AiService.CallOutcome α) (validate : α → Option β)
       (m1 m2 m3 : String) (q1 q2 : List Char) (a : α) (b : β),
       attempt m1 = .error q1 → AiService.isQuotaMessage q1 = true →
       attempt m2 = .error q2 → AiService.isQuotaMessage q2 = true →
       attempt m3 = .ok a → validate a = some b →
       AiService.modelFallbackLoop attempt validate [m1, m2, m3] none = .ok (b, m3) ∧
       AiService.attemptedModels attempt validate [m1, m2, m3] = [m1, m2, m3]) := by
  refine ⟨fun _ _ _ => rfl, ?_, ?_, ?_, ?_⟩
  · intro attempt validate m rest lastError msg hm hq
    constructor
    · simp [AiService.modelFallbackLoop, hm, hq]
    · simp [AiService.attemptedModels, hm, hq]
  · intro attempt validate m rest lastError msg hm hq
    constructor
    · simp [AiService.modelFallbackLoop, hm, hq]
    · simp [AiService.attemptedModels, hm, hq]
  · intro attempt validate models
    induction models with
    | nil => simp [AiService.attemptedModels]
    | cons m rest ih =>
        rcases hatt : attempt m with a | msg
        · rcases hval : validate a with _ | b
          · simp only [AiService.attemptedModels, hatt, hval]
            obtain ⟨t, ht⟩ := ih
            exact ⟨t, by rw [List.cons_append, ht]⟩
          · simp only [AiService.attemptedModels, hatt, hval]
            exact ⟨rest, rfl⟩
        · rcases hquo : AiService.isQuotaMessage msg with _ | _
          · simp only [AiService.attemptedModels, hatt, hquo, Bool.false_eq_true, if_false]
            exact ⟨rest, rfl⟩
          · simp only [AiService.attemptedModels, hatt, hquo, if_true]
            obtain ⟨t, ht⟩ := ih
            exact ⟨t, by rw [List.cons_append, ht]⟩
  · intro attempt validate m1 m2 m3 q1 q2 a b h1 hq1 h2 hq2 h3 hv
    constructor
    · simp [AiService.modelFallbackLoop, h1, hq1, h2, hq2, h3, hv]
    · simp [AiService.attemptedModels, h1, hq1, h2, hq2, h3, hv]

/-- C6 witness: the fallback applied to three concrete ranked models of which
the first two report quota errors and the third succeeds. -/
theorem c6_model_fallback_witness :
    AiService.modelFallbackLoop
        (fun m => if m = "gemini-a" then .error "429 quota exceeded".toList
                  else if m = "gemini-b" then .error "quota hit".toList
                  else .ok "resp".toList)
        (fun r => some r) ["gemini-a", "gemini-b", "gemini-c"] none
      = .ok ("resp".toList, "gemini-c") :=
  ((c6_model_fallback (α := List Char) (β := List Char)).2.2.2.2
    (fun m => if m = "gemini-a" then .error "429 quota exceeded".toList
              else if m = "gemini-b" then .error "quota hit".toList
              else .ok "resp".toList)
    (fun r => some r) "gemini-a" "gemini-b" "gemini-c"
    "429 quota exceeded".toList "quota hit".toList "resp".toList "resp".toList
    (by with_unfolding_all rfl) (by decide) (by with_unfolding_all rfl) (by decide)
    (by with_unfolding_all rfl) rfl).1

/-- C7: the validated word list is exactly the string entries of the first
bracketed array of the response that occur verbatim in the source text;
`includes` coincides with case-sensitive substring (infix) containment; in
particular source "the quick fox" with response array ["quick","zebra"]
validates to exactly ["quick"]. -/
theorem c7_word_validation (resp orig slice : List Char)
    (entries : List AiService.JsonScalar)
    (h1 : AiService.firstBracketSlice resp = some slice)
    (h2 : AiService.parseJsonArray slice = some entries) :
    AiService.parseWordsFromResponse resp orig =
      entries.filterMap (fun e => match e with
        | .str w => if jsIncludes orig w then some w else none
        | .nonString => none) ∧
    (∀ w, w ∈ AiService.parseWordsFromResponse resp orig ↔
       AiService.JsonScalar.str w ∈ entries ∧ w <:+: orig) ∧
    AiService.parseWordsFromResponse "Voici: [\"quick\", \"zebra\"]".toList
        "the quick fox".toList = ["quick".toList] := by
  have hmain : AiService.parseWordsFromResponse resp orig =
      entries.filterMap (fun e => match e with
        | .str w => if jsIncludes orig w then some w else none
        | .nonString => none) := by
    simp only [AiService.parseWordsFromResponse, h1, h2]
  refine ⟨hmain, ?_, by decide⟩
  intro w
  rw [hmain, List.mem_filterMap]
  constructor
  · rintro ⟨e, he, heq⟩
    rcases e with w' | _
    · simp only at heq
      by_cases hin : jsIncludes orig w' = true
      · rw [if_pos hin] at heq
        cases heq
        exact ⟨he, (jsIncludes_iff _ orig).mp hin⟩
      · rw [if_neg hin] at heq
        simp at heq
    · simp at heq
  · rintro ⟨hmem, hinf⟩
    refine ⟨.str w, hmem, ?_⟩
    simp only
    rw [if_pos ((jsIncludes_iff w orig).mpr hinf)]

/-- C7 witness: the validation theorem applied at the concrete response and
source text of the specification's example. -/
theorem c7_word_validation_witness :
    AiService.parseWordsFromResponse "Voici: [\"quick\", \"zebra\"]".toList
        "the quick fox".toList = ["quick".toList] :=
  (c7_word_validation "Voici: [\"quick\", \"zebra\"]".toList "the quick fox".toList
    "[\"quick\", \"zebra\"]".toList
    [AiService.JsonScalar.str "quick".toList, AiService.JsonScalar.str "zebra".toList]
    (by decide) (by decide)).2.2

/-- C5 witness: the rainbow cycling theorem applied at the text "a b": the
second non-space character (after a skipped space) gets palette color 1. -/
theorem c5_rainbow_cycle_witness :
    (⟨some "#ff7f00", none, 'b'⟩ : CharStyle).color
      = some (rainbowConfig.colors.getD (1 % 7) "") :=
  (c5_rainbow_cycle (fun _ => 0) ['a', ' ', 'b'] none ⟨none, none⟩).1 1
    ⟨some "#ff7f00", none, 'b'⟩ (by with_unfolding_all rfl)

end MailColoring
